import Mathlib

set_option maxHeartbeats 1000000

/-!
Verification development for the churn-prediction pipeline
(`churn_library.py` and `churn_script_logging_and_tests.py`).

The pandas `DataFrame` is embedded as an ordered list of column names
together with a list of rows; each cell is a `Value` (a string, a
rational number, or a null/NaN).  The pipeline stages are translated
as executable functions over this model; operations that can raise a
Python exception (`KeyError` on a missing column, `.loc` on a missing
group key, a non-numeric mean) return `Option`.
-/

/-- A cell of the table: pandas object (string), numeric, or NaN/null. -/
inductive Value where
  | str : String → Value
  | num : ℚ → Value
  | null : Value
deriving DecidableEq

/-- Is the cell numeric?  (`groupby(...).mean()` keeps only numeric columns.) -/
def Value.isNum : Value → Bool
  | num _ => true
  | _ => false

/-- Numeric content of a cell, 0 for non-numeric cells. -/
def Value.toQ : Value → ℚ
  | num q => q
  | _ => 0

/-- Embedding of a pandas `DataFrame`: ordered column names and rows of cells. -/
structure DataFrame where
  cols : List String
  rows : List (List Value)
deriving DecidableEq, Inhabited

/-- Index of the first occurrence of column name `c`. -/
def idxOf? (c : String) : List String → Option Nat
  | [] => none
  | x :: xs => if x = c then some 0 else (idxOf? c xs).map (· + 1)

/-- Well-formed frame: every row has one cell per column. -/
def DataFrame.WF (df : DataFrame) : Prop :=
  ∀ r ∈ df.rows, r.length = df.cols.length

instance (df : DataFrame) : Decidable df.WF := by
  unfold DataFrame.WF; infer_instance

/-- Reads `df[c]`: the column named `c` as a list of cells, or `none` (KeyError)
if there is no such column. -/
def DataFrame.getCol (df : DataFrame) (c : String) : Option (List Value) :=
  (idxOf? c df.cols).map fun i => df.rows.map fun r => r.getD i Value.null

/-- Performs `df[c] = vs`: overwrite the column named `c` if it exists, otherwise
append a new column named `c` at the end (pandas column assignment). -/
def DataFrame.setCol (df : DataFrame) (c : String) (vs : List Value) : DataFrame :=
  match idxOf? c df.cols with
  | some i => ⟨df.cols, (df.rows.zip vs).map fun rv => rv.1.set i rv.2⟩
  | none => ⟨df.cols ++ [c], (df.rows.zip vs).map fun rv => rv.1 ++ [rv.2]⟩

/-! ## EDA stage (`perform_eda`, churn_library lines 34-76)

Only the data transformation is embedded; saving the figures is a side
effect on the filesystem with no influence on the returned table. -/

/-- The lambda of line 47: `0 if val == "Existing Customer" else 1`.
Note a NaN cell compares unequal to the string, hence maps to 1. -/
def churnOfFlag (v : Value) : Value :=
  if v = Value.str "Existing Customer" then Value.num 0 else Value.num 1

/-- Lines 43-47: copy the frame and derive the `Churn` column from
`Attrition_Flag`; `none` models the KeyError when `Attrition_Flag`
is absent. -/
def perform_eda (df : DataFrame) : Option DataFrame :=
  (df.getCol "Attrition_Flag").map fun flags =>
    df.setCol "Churn" (flags.map churnOfFlag)

/-! ## Categorical encoder (`encoder_helper`, churn_library lines 79-106) -/

/-- Specification-level formula: the mean of the `Churn` entries taken over
all rows of `df` whose `cat`-column entry equals `k` (the claims' phrase
"mean of Churn over all input rows sharing that category value"). -/
def meanChurnOver (df : DataFrame) (cat : String) (k : Value) : ℚ :=
  match df.getCol cat, df.getCol "Churn" with
  | some keys, some churn =>
      let sel := (keys.zip churn).filter fun p => p.1 = k
      ((sel.map fun p => p.2.toQ).sum) / (sel.length : ℚ)
  | _, _ => 0

/-- Option-valued traversal used to model the per-row `.loc` lookups. -/
def traverseQ (f : Value → Option ℚ) : List Value → Option (List ℚ)
  | [] => some []
  | k :: ks =>
    match f k, traverseQ f ks with
    | some v, some vs => some (v :: vs)
    | _, _ => none

/-- Lines 95-99: `column_groups = dataframe.groupby(category).mean()['Churn']`
followed by `column_lst.append(column_groups.loc[val])` for each `val` of
`dataframe[category]`.  The group mean of `Churn` for key `k` is the mean of
the `Churn` cells over the rows whose `category` cell equals `k`.  Failure
(`none`) models: missing `category` or `Churn` column (KeyError), a
non-numeric `Churn` column (no numeric mean to select), and a NaN category
cell (`groupby` drops NaN keys, so `.loc[NaN]` raises). -/
def encodeColumn (df : DataFrame) (category : String) : Option (List ℚ) :=
  match df.getCol category, df.getCol "Churn" with
  | some keys, some churn =>
      if churn.all Value.isNum then
        traverseQ
          (fun k =>
            if k = Value.null then none
            else
              let sel := (keys.zip churn).filter fun p => p.1 = k
              some (((sel.map fun p => p.2.toQ).sum) / (sel.length : ℚ)))
          keys
      else none
  | _, _ => none

/-- Lines 101-104: target column name.  Python truthiness: `if response:`
treats both `None` and the empty string as falsy (overwrite in place). -/
def encName (category : String) (response : Option String) : String :=
  match response with
  | some r => if r = "" then category else category ++ "_" ++ r
  | none => category

/-- Lines 91-106: copy the frame, then for each category compute the group
means **from the original frame** (the loop reads `dataframe`, not
`encoder_df`) and assign them to `encoder_df[<name>]`. -/
def encoder_helper (df : DataFrame) (category_lst : List String)
    (response : Option String) : Option DataFrame :=
  category_lst.foldlM
    (fun acc category =>
      (encodeColumn df category).map fun vals =>
        acc.setCol (encName category response) (vals.map Value.num))
    df

/-! ## Feature engineering (`perform_feature_engineering`, lines 109-169) -/

/-- Line 122-127. -/
def cat_columns : List String :=
  ["Gender", "Education_Level", "Marital_Status", "Income_Category", "Card_Category"]

/-- Lines 141-160: the fixed 19 feature columns (14 raw numeric and the 5
encoder-created names hard-coded with the `_Churn` suffix). -/
def keep_cols : List String :=
  ["Customer_Age", "Dependent_count", "Months_on_book", "Total_Relationship_Count",
   "Months_Inactive_12_mon", "Contacts_Count_12_mon", "Credit_Limit",
   "Total_Revolving_Bal", "Avg_Open_To_Buy", "Total_Amt_Chng_Q4_Q1",
   "Total_Trans_Amt", "Total_Trans_Ct", "Total_Ct_Chng_Q4_Q1",
   "Avg_Utilization_Ratio", "Gender_Churn", "Education_Level_Churn",
   "Marital_Status_Churn", "Income_Category_Churn", "Card_Category_Churn"]

/-- Reads `encoded_df[keep_cols]`: all the requested columns, or `none`
(KeyError) if any is missing. -/
def getCols (df : DataFrame) : List String → Option (List (List Value))
  | [] => some []
  | c :: cs =>
    match df.getCol c, getCols df cs with
    | some v, some vs => some (v :: vs)
    | _, _ => none

/-- The four return values of `perform_feature_engineering`. -/
structure SplitResult where
  x_train : DataFrame
  x_test : DataFrame
  y_train : List Value
  y_test : List Value
deriving DecidableEq

/-- Number of test rows chosen by `train_test_split(..., test_size=0.3)`:
`ceil(0.3 * n)`, written with natural division. -/
def testCount (n : Nat) : Nat := (3 * n + 9) / 10

/-- Lines 109-169.  `shuffle n` abstracts the permutation of `range n`
drawn by `train_test_split(..., random_state=42)`; the split takes the
first `testCount n` shuffled rows as the test partition and the rest as
the train partition, exactly as scikit-learn's `ShuffleSplit` does.  The
pseudo-random permutation itself is a deterministic function of the seed,
which is fixed, so it enters the model as a parameter constrained (in the
theorems) only to be a permutation of `range n`.  Before splitting,
scikit-learn's `_validate_shuffle_split` raises a `ValueError` when the
resulting train partition would be empty (`n - testCount n = 0`, e.g. on
zero- or one-row inputs); that error path is modelled by `none`. -/
def perform_feature_engineering (shuffle : Nat → List Nat) (df : DataFrame)
    (response : Option String) : Option SplitResult :=
  (encoder_helper df cat_columns response).bind fun encoded =>
  (encoded.getCol "Churn").bind fun target =>
  (getCols encoded keep_cols).bind fun colVals =>
    let n := encoded.rows.length
    let t := testCount n
    if n - t = 0 then none
    else
      let xRows := (List.range n).map fun i => colVals.map fun col => col.getD i Value.null
      let idx := shuffle n
      let shuffledX := idx.map fun i => xRows.getD i []
      let shuffledY := idx.map fun i => target.getD i Value.null
      some
        { x_train := ⟨keep_cols, shuffledX.drop t⟩
          x_test := ⟨keep_cols, shuffledX.take t⟩
          y_train := shuffledY.drop t
          y_test := shuffledY.take t }

/-- A concrete permutation family used to instantiate witnesses. -/
def idShuffle : Nat → List Nat := List.range

/-! ## Feature-importance plot (`feature_importance_plot`, lines 236-269)

Only the order of the plotted bars is data; the bars plotted are
`importances[indices]` with `indices = np.argsort(importances)[::-1]`.
`argsort` is embedded as an insertion sort of the index list by
importance value (any correct argsort produces the same value
sequence). -/

/-- Insert index `i` into an index list kept ascending by importance. -/
def insertIdxBy (xs : List ℚ) (i : Nat) : List Nat → List Nat
  | [] => [i]
  | j :: js =>
    if xs.getD i 0 ≤ xs.getD j 0 then i :: j :: js else j :: insertIdxBy xs i js

/-- Computes `np.argsort(importances)`: indices ordered by ascending importance. -/
def argsortAsc (xs : List ℚ) : List Nat :=
  (List.range xs.length).foldr (insertIdxBy xs) []

/-- Line 250: `indices = np.argsort(importances)[::-1]`. -/
def sortedIndicesDesc (xs : List ℚ) : List Nat := (argsortAsc xs).reverse

/-- Line 263: the bar heights plotted, `importances[indices]`. -/
def feature_importance_plot (xs : List ℚ) : List ℚ :=
  (sortedIndicesDesc xs).map fun i => xs.getD i 0

/-! ## Heap model for the copy discipline (claims about non-mutation)

Python variables hold references to frame objects; `copy(deep=True)`
allocates a fresh object and all subsequent writes of the stage target
only that fresh object, while reads of the input go through the original
reference.  The heap is a list of frame objects addressed by index. -/

abbrev Heap := List DataFrame

/-- Embeds `perform_eda` acting on the heap: read the frame at address `a`,
allocate the deep copy at a fresh address, and mutate only the copy. -/
def perform_eda_heap (h : Heap) (a : Nat) : Option (Heap × Nat) :=
  match h[a]? with
  | none => none
  | some df =>
    match perform_eda df with
    | none => none
    | some out => some ((h ++ [df]).set h.length out, h.length)

/-- Embeds `encoder_helper` acting on the heap: the loop of lines 94-104 reads
only `dataframe` (address `a`) and writes only `encoder_df` (the fresh
copy), so its heap effect is: allocate the copy, overwrite the copy with
the encoded table. -/
def encoder_helper_heap (h : Heap) (a : Nat) (cats : List String)
    (resp : Option String) : Option (Heap × Nat) :=
  match h[a]? with
  | none => none
  | some df =>
    match encoder_helper df cats resp with
    | none => none
    | some out => some ((h ++ [df]).set h.length out, h.length)

/-! ## Test harness (`churn_script_logging_and_tests.py`)

The harness drives the library functions and only branches on whether a
call raised; the environment below abstracts each library call by its
outcome, and file-existence checks by a predicate. -/

/-- Kinds of Python exception distinguished by the harness. -/
inductive PyErr where
  | fileNotFound
  | assertionFailed
  | generic : Nat → PyErr
deriving DecidableEq

/-- Outcomes of the library calls and of `os.path.isfile`, abstracting
the filesystem and the dataset. -/
structure HarnessEnv where
  importResult : Except PyErr DataFrame
  edaResult : DataFrame → Except PyErr DataFrame
  pfeResult : DataFrame → Except PyErr SplitResult
  isFile : String → Bool

/-- Lines 61-67: the five EDA images asserted to exist. -/
def eda_image_files : List String :=
  ["churn_distribution.png", "customer_age_distribution.png",
   "marital_status_distribution.png", "total_trans_ct_distribution.png",
   "heatmap.png"]

/-- Lines 69-71: assert `os.path.isfile` for each EDA image. -/
def checkEdaFiles (isFile : String → Bool) : Except PyErr Unit :=
  if eda_image_files.all isFile then .ok () else .error .assertionFailed

/-- Embeds `test_import` (lines 22-45): `import_data` failures are logged and
re-raised (only `FileNotFoundError` is caught, and it is re-raised; other
exceptions propagate uncaught, so every failure outcome propagates);
then the shape assertions run. -/
def test_import (env : HarnessEnv) : Except PyErr Unit :=
  match env.importResult with
  | .error e => .error e
  | .ok df =>
      if 0 < df.rows.length ∧ 0 < df.cols.length then .ok ()
      else .error .assertionFailed

/-- Embeds `test_eda` (lines 48-71): the `import_data` call on line 52 is outside
any `try`, so its failure propagates; the `perform_eda` call is inside
`try/except Exception`, whose handler only logs, so its outcome is
discarded and control always reaches the file assertions. -/
def test_eda (env : HarnessEnv) : Except PyErr Unit :=
  match env.importResult with
  | .error e => .error e
  | .ok df =>
    match env.edaResult df with
    | .error _ => checkEdaFiles env.isFile
    | .ok _ => checkEdaFiles env.isFile

/-- Embeds `test_perform_feature_engineering` (lines 149-179): both the import
and the `perform_feature_engineering` call sit in one `try/except
Exception` whose handler only logs, and `two_test_level` is `False`, so
the function always returns normally. -/
def test_perform_feature_engineering (env : HarnessEnv) : Except PyErr Unit :=
  match env.importResult with
  | .error _ => .ok ()
  | .ok df =>
    match env.pfeResult df with
    | .error _ => .ok ()
    | .ok _ => .ok ()

/-! ## Basic lemmas about the table model -/

theorem getD_set_self {α} (l : List α) (i : Nat) (v d : α) (h : i < l.length) :
    (l.set i v).getD i d = v := by
  rw [List.getD_eq_getElem?_getD, List.getElem?_set_self h]
  rfl

theorem getD_set_ne {α} (l : List α) (i j : Nat) (v d : α) (h : i ≠ j) :
    (l.set i v).getD j d = l.getD j d := by
  rw [List.getD_eq_getElem?_getD, List.getElem?_set_ne h, ← List.getD_eq_getElem?_getD]

theorem getD_append_left {α} (l₁ l₂ : List α) (j : Nat) (d : α) (h : j < l₁.length) :
    (l₁ ++ l₂).getD j d = l₁.getD j d := by
  rw [List.getD_eq_getElem?_getD, List.getElem?_append_left h, ← List.getD_eq_getElem?_getD]

theorem getD_append_length {α} (l : List α) (v d : α) :
    (l ++ [v]).getD l.length d = v := by
  induction l with
  | nil => rfl
  | cons x xs ih =>
    simp only [List.cons_append, List.length_cons, List.getD_cons_succ]
    exact ih

theorem idxOf?_eq_none_iff {c : String} {l : List String} :
    idxOf? c l = none ↔ c ∉ l := by
  induction l with
  | nil => simp [idxOf?]
  | cons x xs ih =>
    by_cases hx : x = c
    · simp [idxOf?, hx]
    · simp [idxOf?, hx, ih, Ne.symm hx]

theorem idxOf?_some_lt {c : String} {l : List String} {i : Nat}
    (h : idxOf? c l = some i) : i < l.length := by
  induction l generalizing i with
  | nil => simp [idxOf?] at h
  | cons x xs ih =>
    by_cases hx : x = c
    · simp [idxOf?, hx] at h
      simp only [List.length_cons]
      omega
    · simp [idxOf?, hx] at h
      obtain ⟨j, hj, rfl⟩ := h
      have := ih hj
      simp only [List.length_cons]
      omega

theorem idxOf?_getD {c : String} {l : List String} {i : Nat}
    (h : idxOf? c l = some i) (d : String) : l.getD i d = c := by
  induction l generalizing i with
  | nil => simp [idxOf?] at h
  | cons x xs ih =>
    by_cases hx : x = c
    · simp [idxOf?, hx] at h
      simp [← h, hx]
    · simp [idxOf?, hx] at h
      obtain ⟨j, hj, rfl⟩ := h
      simpa using ih hj

theorem idxOf?_append_of_mem {c : String} {l₁ : List String} (l₂ : List String)
    (h : c ∈ l₁) : idxOf? c (l₁ ++ l₂) = idxOf? c l₁ := by
  induction l₁ with
  | nil => simp at h
  | cons x xs ih =>
    by_cases hx : x = c
    · simp [idxOf?, hx]
    · have hmem : c ∈ xs := by
        rcases List.mem_cons.mp h with h1 | h1
        · exact absurd h1.symm hx
        · exact h1
      simp [idxOf?, hx, ih hmem]

theorem idxOf?_append_of_not_mem {c : String} {l₁ : List String} (l₂ : List String)
    (h : c ∉ l₁) :
    idxOf? c (l₁ ++ l₂) = (idxOf? c l₂).map (· + l₁.length) := by
  induction l₁ with
  | nil => simp
  | cons x xs ih =>
    have hx : x ≠ c := fun hxc => h (by simp [hxc])
    have hxs : c ∉ xs := fun hm => h (by simp [hm])
    rw [List.cons_append]
    simp only [idxOf?, hx, if_false, ih hxs, Option.map_map]
    cases idxOf? c l₂ <;> simp

theorem mem_of_idxOf?_some {c : String} {l : List String} {i : Nat}
    (h : idxOf? c l = some i) : c ∈ l := by
  by_contra hmem
  rw [idxOf?_eq_none_iff.mpr hmem] at h
  exact Option.noConfusion h

theorem getCol_length {df : DataFrame} {c : String} {vs : List Value}
    (h : df.getCol c = some vs) : vs.length = df.rows.length := by
  unfold DataFrame.getCol at h
  cases hidx : idxOf? c df.cols with
  | none => rw [hidx] at h; exact Option.noConfusion h
  | some i =>
    rw [hidx] at h
    simp only [Option.map_some', Option.some.injEq] at h
    rw [← h]
    simp

theorem getCol_eq_none_iff {df : DataFrame} {c : String} :
    df.getCol c = none ↔ c ∉ df.cols := by
  unfold DataFrame.getCol
  rw [Option.map_eq_none', idxOf?_eq_none_iff]

theorem mem_of_getCol_some {df : DataFrame} {c : String} {vs : List Value}
    (h : df.getCol c = some vs) : c ∈ df.cols := by
  by_contra hmem
  rw [getCol_eq_none_iff.mpr hmem] at h
  exact Option.noConfusion h

theorem getCol_isSome_of_mem {df : DataFrame} {c : String} (h : c ∈ df.cols) :
    ∃ vs, df.getCol c = some vs := by
  cases hg : df.getCol c with
  | none => exact absurd (getCol_eq_none_iff.mp hg) (by simp [h])
  | some vs => exact ⟨vs, rfl⟩

theorem setCol_cols_of_mem {df : DataFrame} {c : String} (vs : List Value)
    (h : c ∈ df.cols) : (df.setCol c vs).cols = df.cols := by
  unfold DataFrame.setCol
  cases hidx : idxOf? c df.cols with
  | none => exact absurd (idxOf?_eq_none_iff.mp hidx) (by simp [h])
  | some i => rfl

theorem setCol_cols_of_not_mem {df : DataFrame} {c : String} (vs : List Value)
    (h : c ∉ df.cols) : (df.setCol c vs).cols = df.cols ++ [c] := by
  unfold DataFrame.setCol
  rw [idxOf?_eq_none_iff.mpr h]

theorem setCol_cols_cases {df : DataFrame} {c c' : String} {vs : List Value}
    (h : c' ∈ (df.setCol c vs).cols) : c' ∈ df.cols ∨ c' = c := by
  by_cases hm : c ∈ df.cols
  · rw [setCol_cols_of_mem vs hm] at h
    exact Or.inl h
  · rw [setCol_cols_of_not_mem vs hm] at h
    rcases List.mem_append.mp h with h1 | h1
    · exact Or.inl h1
    · exact Or.inr (by simpa using h1)

theorem setCol_rows_length {df : DataFrame} {c : String} {vs : List Value}
    (h : vs.length = df.rows.length) :
    (df.setCol c vs).rows.length = df.rows.length := by
  unfold DataFrame.setCol
  cases idxOf? c df.cols <;> simp [h]

theorem setCol_WF {df : DataFrame} {c : String} {vs : List Value}
    (hwf : df.WF) : (df.setCol c vs).WF := by
  unfold DataFrame.setCol DataFrame.WF
  cases hidx : idxOf? c df.cols with
  | some i =>
    intro r hr
    simp only [List.mem_map] at hr
    obtain ⟨⟨row, v⟩, hmem, rfl⟩ := hr
    have hrow : row ∈ df.rows := (List.of_mem_zip hmem).1
    simp [hwf row hrow]
  | none =>
    intro r hr
    simp only [List.mem_map] at hr
    obtain ⟨⟨row, v⟩, hmem, rfl⟩ := hr
    have hrow : row ∈ df.rows := (List.of_mem_zip hmem).1
    simp [hwf row hrow]

/-- Pointwise description of the rows produced by an overwriting `setCol`. -/
theorem map_getD_zip_set {rs : List (List Value)} {vs : List Value} {i : Nat}
    (hlen : vs.length = rs.length)
    (hwidth : ∀ r ∈ rs, i < r.length) :
    ((rs.zip vs).map fun rv => rv.1.set i rv.2).map (fun r => r.getD i Value.null) = vs := by
  induction rs generalizing vs with
  | nil => cases vs with
    | nil => rfl
    | cons v vs => simp at hlen
  | cons r rs ih =>
    cases vs with
    | nil => simp at hlen
    | cons v vs =>
      simp only [List.zip_cons_cons, List.map_cons, List.cons.injEq]
      constructor
      · exact getD_set_self r i v Value.null (hwidth r (by simp))
      · exact ih (by simpa using hlen) (fun r hr => hwidth r (by simp [hr]))

theorem map_getD_zip_set_ne {rs : List (List Value)} {vs : List Value} {i j : Nat}
    (hlen : vs.length = rs.length) (hij : i ≠ j) :
    ((rs.zip vs).map fun rv => rv.1.set i rv.2).map (fun r => r.getD j Value.null) =
      rs.map (fun r => r.getD j Value.null) := by
  induction rs generalizing vs with
  | nil => cases vs <;> rfl
  | cons r rs ih =>
    cases vs with
    | nil => simp at hlen
    | cons v vs =>
      simp only [List.zip_cons_cons, List.map_cons, List.cons.injEq]
      exact ⟨getD_set_ne r i j v Value.null hij, ih (by simpa using hlen)⟩

theorem map_getD_zip_append {rs : List (List Value)} {vs : List Value} {j : Nat}
    (hlen : vs.length = rs.length)
    (hj : ∀ r ∈ rs, j < r.length) :
    ((rs.zip vs).map fun rv => rv.1 ++ [rv.2]).map (fun r => r.getD j Value.null) =
      rs.map (fun r => r.getD j Value.null) := by
  induction rs generalizing vs with
  | nil => cases vs <;> rfl
  | cons r rs ih =>
    cases vs with
    | nil => simp at hlen
    | cons v vs =>
      simp only [List.zip_cons_cons, List.map_cons, List.cons.injEq]
      constructor
      · exact getD_append_left r [v] j Value.null (hj r (by simp))
      · exact ih (by simpa using hlen) (fun r hr => hj r (by simp [hr]))

theorem map_getD_zip_append_end {rs : List (List Value)} {vs : List Value} {w : Nat}
    (hlen : vs.length = rs.length)
    (hw : ∀ r ∈ rs, r.length = w) :
    ((rs.zip vs).map fun rv => rv.1 ++ [rv.2]).map (fun r => r.getD w Value.null) = vs := by
  induction rs generalizing vs with
  | nil => cases vs with
    | nil => rfl
    | cons v vs => simp at hlen
  | cons r rs ih =>
    cases vs with
    | nil => simp at hlen
    | cons v vs =>
      simp only [List.zip_cons_cons, List.map_cons, List.cons.injEq]
      constructor
      · rw [← hw r (by simp)]
        exact getD_append_length r v Value.null
      · exact ih (by simpa using hlen) (fun r hr => hw r (by simp [hr]))

theorem getCol_setCol_self {df : DataFrame} {c : String} {vs : List Value}
    (hwf : df.WF) (hlen : vs.length = df.rows.length) :
    (df.setCol c vs).getCol c = some vs := by
  unfold DataFrame.setCol
  cases hidx : idxOf? c df.cols with
  | some i =>
    have hi : i < df.cols.length := idxOf?_some_lt hidx
    unfold DataFrame.getCol
    simp only [hidx, Option.map_some']
    exact congrArg some
      (map_getD_zip_set hlen (fun r hr => by rw [hwf r hr]; exact hi))
  | none =>
    unfold DataFrame.getCol
    have hnm : c ∉ df.cols := idxOf?_eq_none_iff.mp hidx
    have hidx2 : idxOf? c (df.cols ++ [c]) = some df.cols.length := by
      rw [idxOf?_append_of_not_mem _ hnm]
      simp [idxOf?]
    simp only [hidx2, Option.map_some']
    exact congrArg some (map_getD_zip_append_end hlen (fun r hr => hwf r hr))

theorem getCol_setCol_ne {df : DataFrame} {c c' : String} {vs : List Value}
    (hwf : df.WF) (hlen : vs.length = df.rows.length) (hne : c' ≠ c) :
    (df.setCol c vs).getCol c' = df.getCol c' := by
  unfold DataFrame.setCol
  cases hidx : idxOf? c df.cols with
  | some i =>
    unfold DataFrame.getCol
    simp only
    cases hidx2 : idxOf? c' df.cols with
    | none => simp
    | some j =>
      have hij : i ≠ j := by
        intro hij
        subst hij
        have h1 : df.cols.getD i "" = c := idxOf?_getD hidx ""
        have h2 : df.cols.getD i "" = c' := idxOf?_getD hidx2 ""
        exact hne (h1 ▸ h2).symm
      simp only [Option.map_some']
      exact congrArg some (map_getD_zip_set_ne hlen hij)
  | none =>
    unfold DataFrame.getCol
    simp only
    by_cases hm : c' ∈ df.cols
    · rw [idxOf?_append_of_mem _ hm]
      cases hidx2 : idxOf? c' df.cols with
      | none => simp
      | some j =>
        have hj : j < df.cols.length := idxOf?_some_lt hidx2
        simp only [Option.map_some']
        exact congrArg some
          (map_getD_zip_append hlen (fun r hr => by rw [hwf r hr]; exact hj))
    · have hl : idxOf? c' (df.cols ++ [c]) = none := by
        rw [idxOf?_append_of_not_mem _ hm]
        have : idxOf? c' [c] = none := by
          rw [idxOf?_eq_none_iff]
          simp [hne]
        simp [this]
      rw [hl, idxOf?_eq_none_iff.mpr hm]
      rfl

/-! ## Lemmas about the encoder -/

theorem traverseQ_length {f : Value → Option ℚ} :
    ∀ {ks : List Value} {vs : List ℚ}, traverseQ f ks = some vs → vs.length = ks.length := by
  intro ks
  induction ks with
  | nil => intro vs h; simp [traverseQ] at h; simp [← h]
  | cons k ks ih =>
    intro vs h
    unfold traverseQ at h
    cases hf : f k with
    | none => rw [hf] at h; exact Option.noConfusion h
    | some v =>
      rw [hf] at h
      cases ht : traverseQ f ks with
      | none => rw [ht] at h; exact Option.noConfusion h
      | some ws =>
        rw [ht] at h
        simp only [Option.some.injEq] at h
        rw [← h]
        simp [ih ht]

theorem traverseQ_eq_map {f : Value → Option ℚ} {g : Value → ℚ}
    (hfg : ∀ k v, f k = some v → v = g k) :
    ∀ {ks : List Value} {vs : List ℚ}, traverseQ f ks = some vs → vs = ks.map g := by
  intro ks
  induction ks with
  | nil => intro vs h; simp [traverseQ] at h; simp [← h]
  | cons k ks ih =>
    intro vs h
    unfold traverseQ at h
    cases hf : f k with
    | none => rw [hf] at h; exact Option.noConfusion h
    | some v =>
      rw [hf] at h
      cases ht : traverseQ f ks with
      | none => rw [ht] at h; exact Option.noConfusion h
      | some ws =>
        rw [ht] at h
        simp only [Option.some.injEq] at h
        rw [← h, List.map_cons, hfg k v hf, ih ht]

/-- A successful `encodeColumn` returns exactly the per-category means of
`Churn`, one for each row's category value, computed over the whole frame. -/
theorem encodeColumn_some {df : DataFrame} {cat : String} {vals : List ℚ}
    (h : encodeColumn df cat = some vals) :
    ∃ keys, df.getCol cat = some keys ∧
      vals = keys.map (meanChurnOver df cat) ∧ vals.length = df.rows.length := by
  unfold encodeColumn at h
  cases hk : df.getCol cat with
  | none => rw [hk] at h; exact Option.noConfusion h
  | some keys =>
    cases hc : df.getCol "Churn" with
    | none => rw [hk, hc] at h; exact Option.noConfusion h
    | some churn =>
      rw [hk, hc] at h
      dsimp only at h
      by_cases hnum : churn.all Value.isNum
      · rw [if_pos hnum] at h
        refine ⟨keys, rfl, ?_, ?_⟩
        · refine traverseQ_eq_map ?_ h
          intro k v hf
          by_cases hnull : k = Value.null
          · rw [if_pos hnull] at hf; exact Option.noConfusion hf
          · rw [if_neg hnull] at hf
            simp only [Option.some.injEq] at hf
            rw [← hf]
            unfold meanChurnOver
            rw [hk, hc]
        · rw [traverseQ_length h]
          exact getCol_length hk
      · rw [if_neg hnum] at h; exact Option.noConfusion h

/-- The name `<cat>_<r>` determines `cat` (append is right-cancellative). -/
theorem encSuffix_inj {cat₁ cat₂ r : String}
    (h : cat₁ ++ "_" ++ r = cat₂ ++ "_" ++ r) : cat₁ = cat₂ := by
  have hd := congrArg String.data h
  simp only [String.data_append] at hd
  have h1 := List.append_cancel_right hd
  have h2 := List.append_cancel_right h1
  exact String.ext h2

/-- Unfolding the encoder loop one category at a time. -/
theorem encoder_helper_cons (df : DataFrame) (cat : String) (cats : List String)
    (resp : Option String) :
    encoder_helper df (cat :: cats) resp =
      (encodeColumn df cat).bind fun vals =>
        List.foldlM
          (fun acc category =>
            (encodeColumn df category).map fun vals =>
              acc.setCol (encName category resp) (vals.map Value.num))
          (df.setCol (encName cat resp) (vals.map Value.num)) cats := by
  unfold encoder_helper
  rw [List.foldlM_cons]
  cases encodeColumn df cat <;> rfl

/-- Invariant of the encoder loop when a truthy response name `r` is given:
each step appends one fresh column `<cat>_<r>` holding the per-category
means of `Churn`, and leaves all other columns untouched. -/
theorem encoder_fold_response (df : DataFrame) (r : String) (hr : r ≠ "") :
    ∀ (cats : List String) (acc : DataFrame),
      acc.WF → acc.rows.length = df.rows.length → cats.Nodup →
      (∀ cat ∈ cats, (cat ++ "_" ++ r) ∉ acc.cols) →
      ∀ out,
        List.foldlM
          (fun acc category =>
            (encodeColumn df category).map fun vals =>
              acc.setCol (encName category (some r)) (vals.map Value.num))
          acc cats = some out →
        out.WF ∧ out.rows.length = df.rows.length ∧
        out.cols = acc.cols ++ cats.map (fun cat => cat ++ "_" ++ r) ∧
        (∀ c, (∀ cat ∈ cats, c ≠ cat ++ "_" ++ r) → out.getCol c = acc.getCol c) ∧
        (∀ cat ∈ cats, ∃ keys, df.getCol cat = some keys ∧
          out.getCol (cat ++ "_" ++ r) =
            some (keys.map fun k => Value.num (meanChurnOver df cat k))) := by
  intro cats
  induction cats with
  | nil =>
    intro acc hwf hlen _ _ out hfold
    simp only [List.foldlM_nil] at hfold
    cases hfold
    refine ⟨hwf, hlen, by simp, fun c _ => rfl, by simp⟩
  | cons cat cats ih =>
    intro acc hwf hlen hnd hfresh out hfold
    rw [List.foldlM_cons] at hfold
    cases henc : encodeColumn df cat with
    | none => rw [henc] at hfold; exact Option.noConfusion hfold
    | some vals =>
      rw [henc] at hfold
      have hnm : encName cat (some r) = cat ++ "_" ++ r := by simp [encName, hr]
      simp only [Option.map_some', Option.some_bind, hnm] at hfold
      obtain ⟨keys, hkeys, hvals, hvlen⟩ := encodeColumn_some henc
      obtain ⟨hcat_notin, hnd'⟩ := List.nodup_cons.mp hnd
      have hvslen : (vals.map Value.num).length = acc.rows.length := by
        simp [hvlen, hlen]
      have hfreshhead : (cat ++ "_" ++ r) ∉ acc.cols := hfresh cat (by simp)
      have hcols₁ : (acc.setCol (cat ++ "_" ++ r) (vals.map Value.num)).cols =
          acc.cols ++ [cat ++ "_" ++ r] := setCol_cols_of_not_mem _ hfreshhead
      have hlen₁ : (acc.setCol (cat ++ "_" ++ r) (vals.map Value.num)).rows.length =
          df.rows.length := by
        rw [setCol_rows_length hvslen]; exact hlen
      have hwf₁ : (acc.setCol (cat ++ "_" ++ r) (vals.map Value.num)).WF :=
        setCol_WF hwf
      have hfresh₁ : ∀ cat' ∈ cats,
          (cat' ++ "_" ++ r) ∉ (acc.setCol (cat ++ "_" ++ r) (vals.map Value.num)).cols := by
        intro cat' hmem
        rw [hcols₁, List.mem_append]
        rintro (hin | hin)
        · exact hfresh cat' (by simp [hmem]) hin
        · have : cat' = cat := encSuffix_inj (by simpa using hin)
          exact hcat_notin (this ▸ hmem)
      obtain ⟨owf, olen, ocols, opres, omean⟩ :=
        ih (acc.setCol (cat ++ "_" ++ r) (vals.map Value.num))
          hwf₁ hlen₁ hnd' hfresh₁ out hfold
      refine ⟨owf, olen, ?_, ?_, ?_⟩
      · rw [ocols, hcols₁, List.append_assoc]
        simp
      · intro c hc
        have hc0 : c ≠ cat ++ "_" ++ r := hc cat (by simp)
        have hct : ∀ cat' ∈ cats, c ≠ cat' ++ "_" ++ r :=
          fun cat' h' => hc cat' (by simp [h'])
        rw [opres c hct]
        exact getCol_setCol_ne hwf hvslen hc0
      · intro cat' hmem
        rcases List.mem_cons.mp hmem with rfl | hmem'
        · refine ⟨keys, hkeys, ?_⟩
          have hpres : out.getCol (cat' ++ "_" ++ r) =
              (acc.setCol (cat' ++ "_" ++ r) (vals.map Value.num)).getCol
                (cat' ++ "_" ++ r) := by
            refine opres _ ?_
            intro cat'' hmem''
            intro heq
            exact hcat_notin (encSuffix_inj heq ▸ hmem'')
          rw [hpres, getCol_setCol_self hwf hvslen, hvals, List.map_map]
          rfl
        · exact omean cat' hmem'

/-- Invariant of the encoder loop with a falsy response (`None`): each step
overwrites the category column in place with the per-category means. -/
theorem encoder_fold_none (df : DataFrame) :
    ∀ (cats : List String) (acc : DataFrame),
      acc.WF → acc.rows.length = df.rows.length → acc.cols = df.cols → cats.Nodup →
      ∀ out,
        List.foldlM
          (fun acc category =>
            (encodeColumn df category).map fun vals =>
              acc.setCol (encName category none) (vals.map Value.num))
          acc cats = some out →
        out.WF ∧ out.rows.length = df.rows.length ∧ out.cols = df.cols ∧
        (∀ c, c ∉ cats → out.getCol c = acc.getCol c) ∧
        (∀ cat ∈ cats, ∃ keys, df.getCol cat = some keys ∧
          out.getCol cat =
            some (keys.map fun k => Value.num (meanChurnOver df cat k))) := by
  intro cats
  induction cats with
  | nil =>
    intro acc hwf hlen hcols _ out hfold
    simp only [List.foldlM_nil] at hfold
    cases hfold
    refine ⟨hwf, hlen, hcols, fun c _ => rfl, by simp⟩
  | cons cat cats ih =>
    intro acc hwf hlen hcols hnd out hfold
    rw [List.foldlM_cons] at hfold
    cases henc : encodeColumn df cat with
    | none => rw [henc] at hfold; exact Option.noConfusion hfold
    | some vals =>
      rw [henc] at hfold
      have hnm : encName cat none = cat := rfl
      simp only [Option.map_some', Option.some_bind, hnm] at hfold
      obtain ⟨keys, hkeys, hvals, hvlen⟩ := encodeColumn_some henc
      obtain ⟨hcat_notin, hnd'⟩ := List.nodup_cons.mp hnd
      have hvslen : (vals.map Value.num).length = acc.rows.length := by
        simp [hvlen, hlen]
      have hmemdf : cat ∈ df.cols := mem_of_getCol_some hkeys
      have hcols₁ : (acc.setCol cat (vals.map Value.num)).cols = df.cols := by
        rw [setCol_cols_of_mem _ (hcols ▸ hmemdf)]; exact hcols
      have hlen₁ : (acc.setCol cat (vals.map Value.num)).rows.length =
          df.rows.length := by
        rw [setCol_rows_length hvslen]; exact hlen
      obtain ⟨owf, olen, ocols, opres, omean⟩ :=
        ih (acc.setCol cat (vals.map Value.num))
          (setCol_WF hwf) hlen₁ hcols₁ hnd' out hfold
      refine ⟨owf, olen, ocols, ?_, ?_⟩
      · intro c hc
        have hc0 : c ≠ cat := fun h => hc (by simp [h])
        have hct : c ∉ cats := fun h => hc (by simp [h])
        rw [opres c hct]
        exact getCol_setCol_ne hwf hvslen hc0
      · intro cat' hmem
        rcases List.mem_cons.mp hmem with rfl | hmem'
        · refine ⟨keys, hkeys, ?_⟩
          rw [opres cat' hcat_notin, getCol_setCol_self hwf hvslen, hvals,
            List.map_map]
          rfl
        · exact omean cat' hmem'

/-- The encoder never changes the number of rows. -/
theorem encoder_fold_length (df : DataFrame) (resp : Option String) :
    ∀ (cats : List String) (acc : DataFrame) (out : DataFrame),
      acc.rows.length = df.rows.length →
      List.foldlM
        (fun acc category =>
          (encodeColumn df category).map fun vals =>
            acc.setCol (encName category resp) (vals.map Value.num))
        acc cats = some out →
      out.rows.length = df.rows.length := by
  intro cats
  induction cats with
  | nil =>
    intro acc out hlen hfold
    simp only [List.foldlM_nil] at hfold
    cases hfold
    exact hlen
  | cons cat cats ih =>
    intro acc out hlen hfold
    rw [List.foldlM_cons] at hfold
    cases henc : encodeColumn df cat with
    | none => rw [henc] at hfold; exact Option.noConfusion hfold
    | some vals =>
      rw [henc] at hfold
      simp only [Option.map_some', Option.some_bind] at hfold
      obtain ⟨keys, hkeys, hvals, hvlen⟩ := encodeColumn_some henc
      refine ih _ out ?_ hfold
      rw [setCol_rows_length (by simp [hvlen, hlen])]
      exact hlen

/-- Every column of the encoder's output is either a column of the input
or one of the target names `encName cat resp`. -/
theorem encoder_fold_cols_sub (df : DataFrame) (resp : Option String) :
    ∀ (cats : List String) (acc : DataFrame) (out : DataFrame),
      List.foldlM
        (fun acc category =>
          (encodeColumn df category).map fun vals =>
            acc.setCol (encName category resp) (vals.map Value.num))
        acc cats = some out →
      ∀ c ∈ out.cols, c ∈ acc.cols ∨ ∃ cat ∈ cats, c = encName cat resp := by
  intro cats
  induction cats with
  | nil =>
    intro acc out hfold c hc
    simp only [List.foldlM_nil] at hfold
    cases hfold
    exact Or.inl hc
  | cons cat cats ih =>
    intro acc out hfold c hc
    rw [List.foldlM_cons] at hfold
    cases henc : encodeColumn df cat with
    | none => rw [henc] at hfold; exact Option.noConfusion hfold
    | some vals =>
      rw [henc] at hfold
      simp only [Option.map_some', Option.some_bind] at hfold
      rcases ih _ out hfold c hc with hin | ⟨cat', hmem, rfl⟩
      · rcases setCol_cols_cases hin with hin' | rfl
        · exact Or.inl hin'
        · exact Or.inr ⟨cat, by simp, rfl⟩
      · exact Or.inr ⟨cat', by simp [hmem], rfl⟩

/-! ## Claim theorems: the encoder and the churn derivation -/

/-- Concrete frames used to instantiate witnesses. -/
def exDFa : DataFrame :=
  ⟨["Gender", "Churn"],
   [[Value.str "M", Value.num 1], [Value.str "F", Value.num 0],
    [Value.str "M", Value.num 0]]⟩

def exDFb : DataFrame := ⟨["Gender", "Churn"], [[Value.num 1, Value.num 1]]⟩

def exDFc : DataFrame :=
  ⟨["Attrition_Flag"],
   [[Value.str "Existing Customer"], [Value.str "Attrited Customer"]]⟩

def exDFd : DataFrame := ⟨["Attrition_Flag"], [[Value.null]]⟩

/-- C1: For every well-formed input table (with its `Churn` column) and
every non-empty list of distinct categories whose target names are not
already columns, when a (non-empty) response name is given and
`encoder_helper` returns a table, the returned table's column count is the
input's plus the number of encoded categories, the new columns are named
`<category>_<response>` (appended in order), and each new column's value in
every row is the mean of `Churn` over all input rows sharing that row's
category value. -/
theorem encoder_helper_response_spec
    (df : DataFrame) (cats : List String) (r : String) (out : DataFrame)
    (hwf : df.WF) (hr : r ≠ "") (_hne : cats ≠ []) (hnd : cats.Nodup)
    (hfresh : ∀ cat ∈ cats, (cat ++ "_" ++ r) ∉ df.cols)
    (h : encoder_helper df cats (some r) = some out) :
    out.cols.length = df.cols.length + cats.length ∧
    out.cols = df.cols ++ cats.map (fun cat => cat ++ "_" ++ r) ∧
    ∀ cat ∈ cats, ∃ keys, df.getCol cat = some keys ∧
      out.getCol (cat ++ "_" ++ r) =
        some (keys.map fun k => Value.num (meanChurnOver df cat k)) := by
  obtain ⟨_, _, ocols, _, omean⟩ :=
    encoder_fold_response df r hr cats df hwf rfl hnd hfresh out h
  exact ⟨by simp [ocols], ocols, omean⟩

unseal Rat.mul Rat.inv Rat.add Rat.sub in
theorem encoder_helper_response_spec_witness :
    ∃ out, encoder_helper exDFa ["Gender"] (some "Churn") = some out ∧
      out.cols.length = exDFa.cols.length + 1 ∧
      out.cols = exDFa.cols ++ ["Gender_Churn"] := by
  have h0 : encoder_helper exDFa ["Gender"] (some "Churn") =
      some ⟨["Gender", "Churn", "Gender_Churn"],
        [[Value.str "M", Value.num 1, Value.num (1/2)],
         [Value.str "F", Value.num 0, Value.num 0],
         [Value.str "M", Value.num 0, Value.num (1/2)]]⟩ := by decide
  have hspec := encoder_helper_response_spec exDFa ["Gender"] "Churn" _
    (by decide) (by decide) (by decide) (by decide) (by decide) h0
  exact ⟨_, h0, hspec.1, hspec.2.1⟩

/-- C3: the function `encoder_helper` applied to the empty category list returns its
input table unchanged, for every table and every response argument. -/
theorem encoder_helper_empty_identity (df : DataFrame) (resp : Option String) :
    encoder_helper df [] resp = some df := rfl

unseal Rat.mul Rat.inv Rat.add Rat.sub in
/-- C6 counterexample: with no response name, the claim asserts the
encoded columns' values always differ from the input's; but on a frame
whose `Gender` column already holds the numeric value 1 with `Churn` 1,
the per-category mean is again 1, and the encoder returns a table equal
to its input. -/
theorem encoder_helper_overwrite_counterexample :
    encoder_helper exDFb ["Gender"] none = some exDFb := by decide

/-- C6 (amended): for every well-formed input table and list of distinct
categories, when no response name is given and `encoder_helper` returns a
table, the returned table has exactly the input's column names, and each
encoded column is overwritten in place with the per-category mean of
`Churn`; the new values can coincide with the old ones only in the
degenerate case where the original entries already equal those means. -/
theorem encoder_helper_overwrite_spec
    (df : DataFrame) (cats : List String) (out : DataFrame)
    (hwf : df.WF) (hnd : cats.Nodup)
    (h : encoder_helper df cats none = some out) :
    out.cols = df.cols ∧
    ∀ cat ∈ cats, ∃ keys, df.getCol cat = some keys ∧
      out.getCol cat =
        some (keys.map fun k => Value.num (meanChurnOver df cat k)) := by
  obtain ⟨_, _, ocols, _, omean⟩ := encoder_fold_none df cats df hwf rfl rfl hnd out h
  exact ⟨ocols, omean⟩

unseal Rat.mul Rat.inv Rat.add Rat.sub in
theorem encoder_helper_overwrite_spec_witness :
    ∃ out, encoder_helper exDFa ["Gender"] none = some out ∧
      out.cols = exDFa.cols ∧ out ≠ exDFa := by
  have h0 : encoder_helper exDFa ["Gender"] none =
      some ⟨["Gender", "Churn"],
        [[Value.num (1/2), Value.num 1], [Value.num 0, Value.num 0],
         [Value.num (1/2), Value.num 0]]⟩ := by decide
  exact ⟨_, h0,
    (encoder_helper_overwrite_spec exDFa ["Gender"] _ (by decide) (by decide) h0).1,
    by decide⟩

/-- Shared description of the table produced by `perform_eda`. -/
theorem eda_churn_col {df : DataFrame} {flags : List Value}
    (hwf : df.WF) (hget : df.getCol "Attrition_Flag" = some flags) :
    perform_eda df = some (df.setCol "Churn" (flags.map churnOfFlag)) ∧
    (df.setCol "Churn" (flags.map churnOfFlag)).getCol "Churn" =
      some (flags.map churnOfFlag) := by
  constructor
  · unfold perform_eda
    rw [hget]
    rfl
  · exact getCol_setCol_self hwf (by simp [getCol_length hget])

/-- C2: For every well-formed table with an `Attrition_Flag` column, the
derived `Churn` column holds, row for row, `0` exactly when the flag is the
string `"Existing Customer"` and `1` for any other value. -/
theorem perform_eda_churn_mapping (df : DataFrame) (flags : List Value)
    (hwf : df.WF) (hget : df.getCol "Attrition_Flag" = some flags) :
    ∃ out, perform_eda df = some out ∧
      out.getCol "Churn" = some (flags.map fun v =>
        if v = Value.str "Existing Customer" then Value.num 0 else Value.num 1) := by
  obtain ⟨h1, h2⟩ := eda_churn_col hwf hget
  exact ⟨_, h1, h2⟩

theorem perform_eda_churn_mapping_witness :
    ∃ out, perform_eda exDFc = some out ∧
      out.getCol "Churn" = some [Value.num 0, Value.num 1] := by
  obtain ⟨out, h1, h2⟩ := perform_eda_churn_mapping exDFc
    [Value.str "Existing Customer", Value.str "Attrited Customer"]
    (by decide) (by decide)
  exact ⟨out, h1, by rw [h2]; decide⟩

/-- C4 counterexample: the claim says a null `Attrition_Flag` makes the
churn derivation fail; in fact `perform_eda` succeeds on a frame whose only
row has a null flag and assigns that row `Churn = 1` (null compares unequal
to `"Existing Customer"`). -/
theorem perform_eda_null_flag_counterexample :
    (perform_eda exDFd).bind (fun d => d.getCol "Churn") = some [Value.num 1] := by
  decide

/-- C4 (amended): a row with a null `Attrition_Flag` does not abort the
derivation: `perform_eda` still returns a table, and such a row's `Churn`
value is 1, exactly as for any flag other than `"Existing Customer"`. -/
theorem perform_eda_null_flag_maps_to_one (df : DataFrame) (flags : List Value)
    (hwf : df.WF) (hget : df.getCol "Attrition_Flag" = some flags) :
    ∃ out chs, perform_eda df = some out ∧ out.getCol "Churn" = some chs ∧
      ∀ i, i < flags.length → flags.getD i Value.null = Value.null →
        chs.getD i Value.null = Value.num 1 := by
  obtain ⟨h1, h2⟩ := eda_churn_col hwf hget
  refine ⟨_, _, h1, h2, ?_⟩
  intro i hi hnull
  rw [List.getD_eq_getElem?_getD, List.getElem?_eq_getElem hi] at hnull
  simp only [Option.getD_some] at hnull
  have hidx : flags[i]? = some Value.null := by
    rw [List.getElem?_eq_getElem hi, hnull]
  rw [List.getD_eq_getElem?_getD, List.getElem?_map, hidx]
  simp [churnOfFlag]

theorem perform_eda_null_flag_maps_to_one_witness :
    ∃ out chs, perform_eda exDFd = some out ∧ out.getCol "Churn" = some chs ∧
      chs.getD 0 Value.null = Value.num 1 := by
  obtain ⟨out, chs, h1, h2, h3⟩ := perform_eda_null_flag_maps_to_one exDFd
    [Value.null] (by decide) (by decide)
  exact ⟨out, chs, h1, h2, h3 0 (by decide) (by decide)⟩

/-! ## Claim theorems: feature-importance ordering -/

theorem mem_insertIdxBy {xs : List ℚ} {i b : Nat} :
    ∀ {l : List Nat}, b ∈ insertIdxBy xs i l ↔ b = i ∨ b ∈ l := by
  intro l
  induction l with
  | nil => simp [insertIdxBy]
  | cons j js ih =>
    unfold insertIdxBy
    by_cases hle : xs.getD i 0 ≤ xs.getD j 0
    · rw [if_pos hle]
      simp
    · rw [if_neg hle]
      simp only [List.mem_cons, ih]
      tauto

theorem pairwise_insertIdxBy {xs : List ℚ} (i : Nat) {l : List Nat}
    (h : l.Pairwise fun a b => xs.getD a 0 ≤ xs.getD b 0) :
    (insertIdxBy xs i l).Pairwise fun a b => xs.getD a 0 ≤ xs.getD b 0 := by
  induction l with
  | nil => simp [insertIdxBy]
  | cons j js ih =>
    rw [List.pairwise_cons] at h
    obtain ⟨hj, hjs⟩ := h
    unfold insertIdxBy
    by_cases hle : xs.getD i 0 ≤ xs.getD j 0
    · rw [if_pos hle]
      refine List.Pairwise.cons ?_ (List.Pairwise.cons hj hjs)
      intro b hb
      rcases List.mem_cons.mp hb with rfl | hbmem
      · exact hle
      · exact le_trans hle (hj b hbmem)
    · rw [if_neg hle]
      refine List.Pairwise.cons ?_ (ih hjs)
      intro b hb
      rcases mem_insertIdxBy.mp hb with rfl | hbmem
      · exact le_of_not_le hle
      · exact hj b hbmem

theorem pairwise_argsortAsc (xs : List ℚ) :
    (argsortAsc xs).Pairwise fun a b => xs.getD a 0 ≤ xs.getD b 0 := by
  unfold argsortAsc
  generalize List.range xs.length = l
  induction l with
  | nil => simp
  | cons a l ih => exact pairwise_insertIdxBy a ih

/-- C9: the sequence of bar heights rendered by
`feature_importance_plot` is non-increasing: for every importance vector,
the plot presents the features sorted descending by importance. -/
theorem feature_importance_plot_sorted_desc (xs : List ℚ) :
    (feature_importance_plot xs).Pairwise fun a b => b ≤ a := by
  unfold feature_importance_plot sortedIndicesDesc
  rw [List.pairwise_map, List.pairwise_reverse]
  exact pairwise_argsortAsc xs

/-! ## Claim theorems: the copy discipline -/

theorem heap_copy_write_preserves {h : Heap} {a : Nat} {df : DataFrame}
    (out : DataFrame) (hget : h[a]? = some df) :
    ((h ++ [df]).set h.length out)[a]? = h[a]? ∧ h.length ≠ a := by
  have ha : a < h.length := by
    by_contra hlt
    push_neg at hlt
    rw [List.getElem?_eq_none hlt] at hget
    exact Option.noConfusion hget
  constructor
  · rw [List.getElem?_set_ne (by omega), List.getElem?_append_left ha]
  · omega

/-- C7: both `perform_eda` and `encoder_helper` leave the frame object passed
to them unchanged: in the heap model, where each stage deep-copies its
argument to a fresh address and mutates only the copy, the input address
still holds the original table after the call, and the returned address is
distinct from it. -/
theorem stages_preserve_input_frame (h : Heap) (a : Nat) (cats : List String)
    (resp : Option String) (h₁ h₂ : Heap) (b₁ b₂ : Nat) :
    (perform_eda_heap h a = some (h₁, b₁) → h₁[a]? = h[a]? ∧ b₁ ≠ a) ∧
    (encoder_helper_heap h a cats resp = some (h₂, b₂) → h₂[a]? = h[a]? ∧ b₂ ≠ a) := by
  constructor
  · intro hp
    unfold perform_eda_heap at hp
    cases hget : h[a]? with
    | none => rw [hget] at hp; exact Option.noConfusion hp
    | some df =>
      rw [hget] at hp
      dsimp only at hp
      cases heda : perform_eda df with
      | none => rw [heda] at hp; exact Option.noConfusion hp
      | some out =>
        rw [heda] at hp
        simp only [Option.some.injEq, Prod.mk.injEq] at hp
        obtain ⟨hh, hb⟩ := hp
        obtain ⟨hpres, hne⟩ := heap_copy_write_preserves out hget
        subst hh hb
        exact ⟨hpres.trans hget, hne⟩
  · intro hp
    unfold encoder_helper_heap at hp
    cases hget : h[a]? with
    | none => rw [hget] at hp; exact Option.noConfusion hp
    | some df =>
      rw [hget] at hp
      dsimp only at hp
      cases henc : encoder_helper df cats resp with
      | none => rw [henc] at hp; exact Option.noConfusion hp
      | some out =>
        rw [henc] at hp
        simp only [Option.some.injEq, Prod.mk.injEq] at hp
        obtain ⟨hh, hb⟩ := hp
        obtain ⟨hpres, hne⟩ := heap_copy_write_preserves out hget
        subst hh hb
        exact ⟨hpres.trans hget, hne⟩

unseal Rat.mul Rat.inv Rat.add Rat.sub in
theorem stages_preserve_input_frame_witness :
    ∃ p q, perform_eda_heap [exDFc] 0 = some p ∧
      encoder_helper_heap [exDFa] 0 ["Gender"] none = some q ∧
      p.1[0]? = some exDFc ∧ q.1[0]? = some exDFa := by
  have e1 : (perform_eda_heap [exDFc] 0).isSome := by decide
  have e2 : (encoder_helper_heap [exDFa] 0 ["Gender"] none).isSome := by decide
  refine ⟨_, _, (Option.some_get e1).symm, (Option.some_get e2).symm, ?_, ?_⟩
  · have := (stages_preserve_input_frame [exDFc] 0 ["Gender"] none
      ((perform_eda_heap [exDFc] 0).get e1).1 []
      ((perform_eda_heap [exDFc] 0).get e1).2 0).1
      (Option.some_get e1).symm
    rw [this.1]
    rfl
  · have := (stages_preserve_input_frame [exDFa] 0 ["Gender"] none []
      ((encoder_helper_heap [exDFa] 0 ["Gender"] none).get e2).1 0
      ((encoder_helper_heap [exDFa] 0 ["Gender"] none).get e2).2).2
      (Option.some_get e2).symm
    rw [this.1]
    rfl

/-! ## Claim theorems: harness exception policy -/

/-- C8: in the harness, a failing `perform_eda` inside `test_eda` is
caught and only logged, so control proceeds to the image-file assertions;
a failing `perform_feature_engineering` (or a failing import) inside
`test_perform_feature_engineering` is caught and only logged, so that test
always returns normally; but a `FileNotFoundError` from `import_data`
inside `test_import` is logged and re-raised. -/
theorem harness_exception_policy (env : HarnessEnv) (df : DataFrame) (e : PyErr) :
    (env.importResult = .ok df → env.edaResult df = .error e →
      test_eda env = checkEdaFiles env.isFile) ∧
    (env.importResult = .ok df → env.pfeResult df = .error e →
      test_perform_feature_engineering env = .ok ()) ∧
    (env.importResult = .error .fileNotFound →
      test_import env = .error .fileNotFound) := by
  refine ⟨?_, ?_, ?_⟩
  · intro h1 h2
    unfold test_eda
    rw [h1]
    dsimp only
    rw [h2]
  · intro h1 h2
    unfold test_perform_feature_engineering
    rw [h1]
    dsimp only
    rw [h2]
  · intro h1
    unfold test_import
    rw [h1]

def envA : HarnessEnv :=
  { importResult := .ok exDFc
    edaResult := fun _ => .error (.generic 0)
    pfeResult := fun _ => .error (.generic 0)
    isFile := fun _ => true }

def envB : HarnessEnv :=
  { importResult := .error .fileNotFound
    edaResult := fun _ => .error (.generic 0)
    pfeResult := fun _ => .error (.generic 1)
    isFile := fun _ => false }

theorem harness_exception_policy_witness :
    test_eda envA = .ok () ∧ test_perform_feature_engineering envA = .ok () ∧
      test_import envB = .error .fileNotFound := by
  have hA := harness_exception_policy envA exDFc (.generic 0)
  have hB := harness_exception_policy envB exDFc (.generic 0)
  refine ⟨?_, hA.2.1 rfl rfl, hB.2.2 rfl⟩
  rw [hA.1 rfl rfl]
  rfl

/-! ## Claim theorems: feature engineering -/

theorem testCount_le (n : Nat) : testCount n ≤ n := by
  unfold testCount
  omega

/-- The split fraction realised by `testCount` is within `9/(10n)` of `3/10`. -/
theorem testCount_ratio (n : Nat) (hn : 0 < n) :
    |((testCount n : ℚ)) / (n : ℚ) - 3 / 10| ≤ 9 / (10 * (n : ℚ)) := by
  have h1 : 3 * n ≤ 10 * testCount n := by unfold testCount; omega
  have h2 : 10 * testCount n ≤ 3 * n + 9 := by unfold testCount; omega
  have hnq : (0 : ℚ) < (n : ℚ) := by exact_mod_cast hn
  have key : ((testCount n : ℚ)) / (n : ℚ) - 3 / 10 =
      (10 * (testCount n : ℚ) - 3 * (n : ℚ)) / (10 * (n : ℚ)) := by
    field_simp
    ring
  have habs : |10 * ((testCount n : ℚ)) - 3 * (n : ℚ)| ≤ 9 := by
    rw [abs_le]
    constructor
    · have hc : (3 * n : ℚ) ≤ 10 * (testCount n : ℚ) := by exact_mod_cast h1
      linarith
    · have hc : (10 * (testCount n : ℚ)) ≤ 3 * (n : ℚ) + 9 := by exact_mod_cast h2
      linarith
  rw [key, abs_div, abs_of_pos (by positivity : (0 : ℚ) < 10 * (n : ℚ))]
  gcongr

/-- C5: For every input table on which `perform_feature_engineering`
succeeds with the default response `Churn`, and every seed-determined
shuffle that permutes the row indices: the feature matrices carry exactly
the fixed 19 columns (14 raw numeric and the 5 `_Churn`-encoded ones);
the test partition holds `ceil(0.3 * n)` of the `n` input rows, so its
fraction of the total is within `9/(10 n)` of `0.3`; and two runs with the
same shuffle (the seed is fixed at 42) return identical partitions. -/
theorem perform_feature_engineering_spec (shuffle : Nat → List Nat)
    (hperm : ∀ n, (shuffle n).Perm (List.range n))
    (df : DataFrame) (res : SplitResult)
    (h : perform_feature_engineering shuffle df (some "Churn") = some res) :
    res.x_train.cols =
      ["Customer_Age", "Dependent_count", "Months_on_book",
       "Total_Relationship_Count", "Months_Inactive_12_mon",
       "Contacts_Count_12_mon", "Credit_Limit", "Total_Revolving_Bal",
       "Avg_Open_To_Buy", "Total_Amt_Chng_Q4_Q1", "Total_Trans_Amt",
       "Total_Trans_Ct", "Total_Ct_Chng_Q4_Q1", "Avg_Utilization_Ratio",
       "Gender_Churn", "Education_Level_Churn", "Marital_Status_Churn",
       "Income_Category_Churn", "Card_Category_Churn"] ∧
    res.x_test.cols = res.x_train.cols ∧
    res.x_test.rows.length = testCount df.rows.length ∧
    res.x_train.rows.length + res.x_test.rows.length = df.rows.length ∧
    (0 < df.rows.length →
      |(res.x_test.rows.length : ℚ) / (df.rows.length : ℚ) - 3 / 10| ≤
        9 / (10 * (df.rows.length : ℚ))) ∧
    (∀ res₂, perform_feature_engineering shuffle df (some "Churn") = some res₂ →
      res₂ = res) := by
  have hdet : ∀ res₂,
      perform_feature_engineering shuffle df (some "Churn") = some res₂ →
      res₂ = res := fun res₂ h₂ => Option.some.inj (h₂.symm.trans h)
  unfold perform_feature_engineering at h
  cases henc : encoder_helper df cat_columns (some "Churn") with
  | none => rw [henc] at h; exact Option.noConfusion h
  | some encoded =>
    rw [henc, Option.some_bind] at h
    cases htar : encoded.getCol "Churn" with
    | none => rw [htar] at h; exact Option.noConfusion h
    | some target =>
      rw [htar, Option.some_bind] at h
      cases hcols : getCols encoded keep_cols with
      | none => rw [hcols] at h; exact Option.noConfusion h
      | some colVals =>
        rw [hcols, Option.some_bind] at h
        by_cases hsmall :
            encoded.rows.length - testCount encoded.rows.length = 0
        · rw [if_pos hsmall] at h
          exact Option.noConfusion h
        rw [if_neg hsmall] at h
        simp only [Option.some.injEq] at h
        have hn : encoded.rows.length = df.rows.length :=
          encoder_fold_length df (some "Churn") cat_columns df encoded rfl henc
        have hshuf : (shuffle encoded.rows.length).length = encoded.rows.length := by
          rw [(hperm encoded.rows.length).length_eq, List.length_range]
        have hxlen :
            ((shuffle encoded.rows.length).map
              (fun i => (((List.range encoded.rows.length).map fun i =>
                colVals.map fun col => col.getD i Value.null)).getD i [])).length =
            encoded.rows.length := by
          rw [List.length_map, hshuf]
        subst h
        dsimp only
        refine ⟨rfl, rfl, ?_, ?_, ?_, hdet⟩
        · rw [List.length_take, hxlen, hn]
          exact Nat.min_eq_left (testCount_le _)
        · rw [List.length_take, List.length_drop, hxlen, hn]
          have := testCount_le df.rows.length
          omega
        · intro hpos
          have htest : (((shuffle encoded.rows.length).map
              (fun i => (((List.range encoded.rows.length).map fun i =>
                colVals.map fun col => col.getD i Value.null)).getD i [])).take
                (testCount encoded.rows.length)).length =
              testCount df.rows.length := by
            rw [List.length_take, hxlen, hn]
            exact Nat.min_eq_left (testCount_le _)
          rw [htest]
          exact testCount_ratio df.rows.length hpos

/-- A 20-column, 2-row frame on which the whole feature-engineering stage
succeeds (5 categorical columns, `Churn`, and the 14 numeric features). -/
def exDF5 : DataFrame :=
  ⟨"Churn" :: cat_columns ++ (keep_cols.take 14),
   [Value.num 1 :: (cat_columns.map fun _ => Value.str "a") ++
      ((keep_cols.take 14).map fun _ => Value.num 2),
    Value.num 0 :: (cat_columns.map fun _ => Value.str "b") ++
      ((keep_cols.take 14).map fun _ => Value.num 3)]⟩

unseal Rat.mul Rat.inv Rat.add Rat.sub in
theorem perform_feature_engineering_spec_witness :
    ∃ res, perform_feature_engineering idShuffle exDF5 (some "Churn") = some res ∧
      res.x_test.rows.length = 1 ∧ res.x_train.rows.length = 1 ∧
      res.x_train.cols.length = 19 := by
  have h0 : (perform_feature_engineering idShuffle exDF5 (some "Churn")).isSome := by
    decide
  have hspec := perform_feature_engineering_spec idShuffle
    (fun n => List.Perm.refl _) exDF5
    ((perform_feature_engineering idShuffle exDF5 (some "Churn")).get h0)
    (Option.some_get h0).symm
  have hrows : exDF5.rows.length = 2 := rfl
  refine ⟨_, (Option.some_get h0).symm, ?_, ?_, ?_⟩
  · rw [hspec.2.2.1, hrows]
    rfl
  · have h3 := hspec.2.2.1
    have h4 := hspec.2.2.2.1
    rw [hrows] at h3 h4
    have : testCount 2 = 1 := rfl
    omega
  · rw [hspec.1]
    rfl

/-! ## Claim theorems: the hard-coded `_Churn` suffix -/

theorem getCols_none {df : DataFrame} {c : String} :
    ∀ {cs : List String}, c ∈ cs → df.getCol c = none → getCols df cs = none := by
  intro cs
  induction cs with
  | nil => intro h; simp at h
  | cons x xs ih =>
    intro hmem hnone
    unfold getCols
    rcases List.mem_cons.mp hmem with rfl | hmem'
    · rw [hnone]
    · rw [ih hmem' hnone]
      cases df.getCol x <;> rfl

/-- Cancel a common literal prefix in a string equation. -/
theorem string_append_left_cancel {pre r s : String}
    (h : pre ++ r = pre ++ s) : r = s := by
  have hd := congrArg String.data h
  simp only [String.data_append] at hd
  exact String.ext (List.append_cancel_left hd)

/-- A category name of length at least 13 can never produce the
12-character target name `Gender_Churn`. -/
theorem ne_gender_churn_of_long {cat : String} (r : String)
    (hlen : 13 ≤ cat.length) : cat ++ "_" ++ r ≠ "Gender_Churn" := by
  intro heq
  have h := congrArg String.length heq
  rw [String.length_append, String.length_append] at h
  have h1 : ("_" : String).length = 1 := rfl
  have h2 : ("Gender_Churn" : String).length = 12 := rfl
  omega

/-- None of the five encoder target names can be `Gender_Churn` unless the
response is exactly `Churn`. -/
theorem encName_ne_gender_churn {resp : Option String}
    (hresp : resp ≠ some "Churn") :
    ∀ cat ∈ cat_columns, encName cat resp ≠ "Gender_Churn" := by
  have hcases : ∀ cat ∈ cat_columns,
      cat = "Gender" ∨ cat = "Education_Level" ∨ cat = "Marital_Status" ∨
      cat = "Income_Category" ∨ cat = "Card_Category" := by
    intro cat hmem
    simpa [cat_columns] using hmem
  intro cat hmem
  cases resp with
  | none =>
    rcases hcases cat hmem with rfl | rfl | rfl | rfl | rfl <;> decide
  | some r =>
    by_cases hr : r = ""
    · simp only [encName, if_pos hr]
      rcases hcases cat hmem with rfl | rfl | rfl | rfl | rfl <;> decide
    · simp only [encName, if_neg hr]
      rcases hcases cat hmem with rfl | rfl | rfl | rfl | rfl
      · intro heq
        apply hresp
        have heq2 : ("Gender" ++ "_") ++ r = ("Gender" ++ "_") ++ "Churn" := heq
        rw [string_append_left_cancel heq2]
      · exact ne_gender_churn_of_long r (by decide)
      · exact ne_gender_churn_of_long r (by decide)
      · exact ne_gender_churn_of_long r (by decide)
      · exact ne_gender_churn_of_long r (by decide)

/-- C10 (amended): `keep_cols` hard-codes the `_Churn` suffix for the
five encoded columns, and `encoder_helper` only creates them when the
response is exactly `Churn`; hence for every input table that does not
itself carry a `Gender_Churn` column, and every response different from
`Churn` (including `None`), `perform_feature_engineering` fails. -/
theorem pfe_nonchurn_response_fails (shuffle : Nat → List Nat) (df : DataFrame)
    (resp : Option String) (hfresh : "Gender_Churn" ∉ df.cols)
    (hresp : resp ≠ some "Churn") :
    perform_feature_engineering shuffle df resp = none := by
  unfold perform_feature_engineering
  cases henc : encoder_helper df cat_columns resp with
  | none => rfl
  | some encoded =>
    have hnotin : "Gender_Churn" ∉ encoded.cols := by
      intro hc
      rcases encoder_fold_cols_sub df resp cat_columns df encoded henc _ hc with
        hin | ⟨cat, hmem, heq⟩
      · exact hfresh hin
      · exact encName_ne_gender_churn hresp cat hmem heq.symm
    have hgc : encoded.getCol "Gender_Churn" = none := getCol_eq_none_iff.mpr hnotin
    have hnone : getCols encoded keep_cols = none :=
      getCols_none (by simp [keep_cols]) hgc
    rw [Option.some_bind]
    cases htar : encoded.getCol "Churn" with
    | none => rfl
    | some target =>
      rw [Option.some_bind, hnone]
      rfl

/-- A two-row frame that already carries all five hard-coded `<cat>_Churn`
columns (together with the categorical, `Churn`, and numeric columns); two
rows make the real train/test split succeed (1 train row, 1 test row). -/
def exDFx : DataFrame :=
  ⟨cat_columns ++ ("Churn" :: keep_cols),
   [(cat_columns.map fun _ => Value.str "a") ++
      (Value.num 1 :: (keep_cols.map fun _ => Value.num 0)),
    (cat_columns.map fun _ => Value.str "b") ++
      (Value.num 0 :: (keep_cols.map fun _ => Value.num 2))]⟩

unseal Rat.mul Rat.inv Rat.add Rat.sub in
/-- C10 counterexample: the claim quantifies over every input table,
but on a table that already contains the `<cat>_Churn` columns,
`perform_feature_engineering` succeeds even with response `None`. -/
theorem pfe_nonchurn_response_counterexample :
    (perform_feature_engineering idShuffle exDFx none).isSome = true := by decide

theorem pfe_nonchurn_response_fails_witness :
    perform_feature_engineering idShuffle exDFa none = none :=
  pfe_nonchurn_response_fails idShuffle exDFa none (by decide) (by decide)
